import Mathlib

/-!
Verification of the classical post-processing routines of the Qrisp Shor
tutorial notebooks: primality test, brute-force order finding, the classical
Shor driver, continued-fraction period-candidate extraction, period validation
with gcd-based factor recovery, and the error-rate upper bound.

The quantum backend (circuit construction, simulation, measurement) is an
external collaborator; its output reaches the classical code only as the
pooled candidate-period list, which is therefore taken as an explicit
parameter.  Python machine integers are modelled as `Nat`; the two unbounded
loops of the source (`find_period_classical` and the 6k±1 trial-division
loop of `is_prime`) are modelled with an explicit fuel parameter, with fuel
chosen large enough to cover every terminating run.  The randomized draws of
`classical_Shor` are modelled as an explicit list of drawn bases; divergence
(empty or exhausted draw list, fuel exhaustion) is modelled as `none`.
-/

/-- Embedding of the trial-division loop of `is_prime`, namely
`while i * i <= n: if n % i == 0 or n % (i+2) == 0: return False; i += 6`,
with an explicit fuel parameter (the loop runs at most `sqrt n / 6 + 1` times,
so any fuel `≥ n` is enough). -/
def isPrimeLoop (n : ℕ) : ℕ → ℕ → Bool
  | 0, _ => true
  | fuel + 1, i =>
    if i * i ≤ n then
      if n % i = 0 ∨ n % (i + 2) = 0 then false
      else isPrimeLoop n fuel (i + 6)
    else true

/-- Embedding of `is_prime` from the notebook: `n <= 1` is not prime, `n <= 3`
is prime, multiples of 2 or 3 are not prime, otherwise trial division by
`6k ± 1` candidates up to `sqrt n`.  (Negative Python inputs all fall into the
`n <= 1` branch, so the natural-number domain is faithful.) -/
def is_prime (n : ℕ) : Bool :=
  if n ≤ 1 then false
  else if n ≤ 3 then true
  else if n % 2 = 0 ∨ n % 3 = 0 then false
  else isPrimeLoop n n 5

/-- Embedding of the loop of `find_period_classical`:
`while pow(g, e, N) != 1: e = e + 1`, with fuel. -/
def findPeriodAux (g N : ℕ) : ℕ → ℕ → Option ℕ
  | 0, _ => none
  | fuel + 1, e => if g ^ e % N = 1 then some e else findPeriodAux g N fuel (e + 1)

/-- Embedding of `find_period_classical(g, N)`: smallest exponent `e ≥ 1` with
`g^e mod N == 1`, searched by incrementing `e`.  The Python loop is unbounded;
here `fuel` bounds the number of iterations and `none` models divergence. -/
def find_period_classical (g N fuel : ℕ) : Option ℕ :=
  findPeriodAux g N fuel 1

/-- Embedding of the `while True:` loop of `classical_Shor`, with the random
draws `a = random.randint(2, N - 1)` made explicit as a list.  Inside the
loop the period is searched with fuel `N`, which suffices whenever
`gcd(a, N) = 1` (see `find_period_classical_correct`).  In the branch
computing `math.gcd(x - 1, N)` the Python value `x - 1` can be `-1` only when
`x = 0`; there Python yields `gcd = 1` and skips via the `p != 1` test, while
the truncated `Nat` subtraction yields `gcd = N` and skips via the `p != N`
test: the control flow and results agree. -/
def shorLoop (N : ℕ) : List ℕ → Option (ℕ × ℕ)
  | [] => none
  | a :: rest =>
    if Nat.gcd a N ≠ 1 then some (Nat.gcd a N, N / Nat.gcd a N)
    else
      match find_period_classical a N N with
      | none => none
      | some r =>
        if r % 2 = 0 then
          let x := a ^ (r / 2) % N
          let p := Nat.gcd (x - 1) N
          let q := Nat.gcd (x + 1) N
          if p ≠ 1 ∧ p ≠ N then some (p, N / p)
          else if q ≠ 1 ∧ q ≠ N then some (q, N / q)
          else shorLoop N rest
        else shorLoop N rest

/-- Embedding of `classical_Shor(N)`: even `N` returns `(2, N // 2)`, prime
`N` returns `(1, N)`, otherwise the randomized loop runs over the given
draws. -/
def classical_Shor (N : ℕ) (draws : List ℕ) : Option (ℕ × ℕ) :=
  if N % 2 = 0 then some (2, N / 2)
  else if is_prime N then some (1, N)
  else shorLoop N draws

/-- Continued-fraction terms of the rational `n / d`, by the Euclidean
algorithm on numerator and denominator (the quotient sequence is exactly what
`sympy.continued_fraction_iterator(Rational(n, d))` yields, and is invariant
under common factors of `n` and `d`).  The second argument strictly decreases
on each recursive call, so any fuel `≥ d` computes the full expansion. -/
def cfTermsN : ℕ → ℕ → ℕ → List ℕ
  | 0, _, _ => []
  | fuel + 1, n, d =>
    if d = 0 then []
    else if n % d = 0 then [n / d]
    else n / d :: cfTermsN fuel d (n % d)

/-- Denominators of the successive continued-fraction convergents, via the
standard recurrence `k_i = a_i * k_(i-1) + k_(i-2)` with seeds
`k_(-2) = 1, k_(-1) = 0` — the recurrence `sympy.continued_fraction_convergents`
uses, whose convergents are already in lowest terms, so each `rat.q` equals
the recurrence value. -/
def convDenomsAux : ℕ → ℕ → List ℕ → List ℕ
  | _, _, [] => []
  | km2, km1, a :: rest =>
    let k := a * km1 + km2
    k :: convDenomsAux km1 k rest

/-- Embedding of `get_r_candidates(approx)`: the list of denominators of the
successive continued-fraction convergents of the phase estimate.  The float
input is modelled as an exact rational (measured phases are dyadic rationals,
which floats represent exactly). -/
def get_r_candidates (x : ℚ) : List ℕ :=
  convDenomsAux 1 0 (cfTermsN x.den x.num.natAbs x.den)

/-- Embedding of `quantum_shor_qiskit(a, N)` after the backend measurement:
the pooled candidate list (`sum([get_r_candidates(approx) for approx in ...], [])`)
is taken as a parameter, deduplicated and sorted ascending
(`sorted(set(r_candidates))`, rendered as insertion sort of `dedup`, which
produces the same ascending duplicate-free list); the first candidate `r`
with `a^r mod N == 1` is accepted, else the "sample again" exception is
raised; an odd accepted `r` raises the "choose another a" exception;
otherwise `p = gcd(a^(r//2) + 1, N)` and `q = int(N / p)` (exact, since `p`
divides `N`) are returned with the smaller first. -/
def quantum_shor_qiskit (a N : ℕ) (r_candidates : List ℕ) : Except String (ℕ × ℕ) :=
  match (List.insertionSort (· ≤ ·) r_candidates.dedup).find?
      (fun cand => a ^ cand % N == 1) with
  | none => Except.error "Please sample again"
  | some r =>
    if r % 2 = 1 then Except.error "Please choose another a"
    else
      let p := Nat.gcd (a ^ (r / 2) + 1) N
      let q := N / p
      if q < p then Except.ok (q, p) else Except.ok (p, q)

/-- Embedding of `error_rate_upper_bound(V, success_rate)`: rejects a success
rate outside `(0, 1]`, otherwise returns `1 - exp(log(success_rate) / V)`.
The floating-point arithmetic of the source is idealized as exact real
arithmetic. -/
noncomputable def error_rate_upper_bound (V success_rate : ℝ) : Except String ℝ :=
  if success_rate ≤ 0 ∨ 1 < success_rate then
    Except.error "The success rate should be between 0 and 1"
  else Except.ok (1 - Real.exp (Real.log success_rate / V))

/-- Membership in the deduplicated, ascending candidate list is membership in
the original pool. -/
lemma mem_sorted_dedup {c : ℕ} {cands : List ℕ} :
    c ∈ List.insertionSort (· ≤ ·) cands.dedup ↔ c ∈ cands := by
  simp

/-- On a list sorted ascending, `find?` returns a minimal element satisfying
the predicate. -/
lemma find?_sorted_min (p : ℕ → Bool) (l : List ℕ) :
    List.Sorted (· ≤ ·) l → ∀ r : ℕ, l.find? p = some r →
      ∀ c ∈ l, p c = true → r ≤ c := by
  induction l with
  | nil => intro _ r hf; simp at hf
  | cons x t ih =>
    intro hs r hf c hc hpc
    rw [List.sorted_cons] at hs
    by_cases hx : p x = true
    · rw [List.find?_cons_of_pos _ hx] at hf
      have hxr : x = r := by injection hf
      subst hxr
      rcases List.mem_cons.mp hc with h | hct
      · exact le_of_eq h.symm
      · exact hs.1 c hct
    · rw [List.find?_cons_of_neg _ hx] at hf
      rcases List.mem_cons.mp hc with h | hct
      · exact absurd (h ▸ hpc) hx
      · exact ih hs.2 r hf c hct hpc

/-- On a sorted list, `find?` locates any element that satisfies the predicate
and is a lower bound of all satisfying elements. -/
lemma find?_sorted_eq_some (p : ℕ → Bool) (l : List ℕ) :
    List.Sorted (· ≤ ·) l → ∀ r : ℕ, r ∈ l → p r = true →
      (∀ c ∈ l, p c = true → r ≤ c) → l.find? p = some r := by
  induction l with
  | nil => intro _ r hr; simp at hr
  | cons x t ih =>
    intro hs r hr hpr hmin
    rw [List.sorted_cons] at hs
    by_cases hx : p x = true
    · rw [List.find?_cons_of_pos _ hx]
      rcases List.mem_cons.mp hr with h | hrt
      · exact congrArg some h.symm
      · exact congrArg some
          (le_antisymm (hs.1 r hrt) (hmin x (List.mem_cons_self x t) hx))
    · rw [List.find?_cons_of_neg _ hx]
      have hrt : r ∈ t := by
        rcases List.mem_cons.mp hr with h | h
        · exact absurd (h ▸ hpr) hx
        · exact h
      exact ih hs.2 r hrt hpr fun c hc hpc => hmin c (List.mem_cons_of_mem x hc) hpc

/-- C1: `quantum_shor_qiskit` accepts, among the pooled candidates, the
smallest `r` with `a^r mod N = 1`; when that `r` is even it returns the pair
built from `p = gcd(a^(r/2) + 1, N)` and `q = N / p`, smaller element first,
and the pair multiplies back to `N`; in particular for `a = 2`, `N = 15` and
any candidate-period pool (positive integers) containing 4 the accepted
period is 4 and the result is `(3, 5)`. -/
theorem quantum_shor_validation_spec (a N : ℕ) (cands : List ℕ) :
    (∀ p q : ℕ, quantum_shor_qiskit a N cands = Except.ok (p, q) →
      ∃ r, r ∈ cands ∧ a ^ r % N = 1 ∧ (∀ c ∈ cands, a ^ c % N = 1 → r ≤ c) ∧
        r % 2 = 0 ∧
        p = min (Nat.gcd (a ^ (r / 2) + 1) N) (N / Nat.gcd (a ^ (r / 2) + 1) N) ∧
        q = max (Nat.gcd (a ^ (r / 2) + 1) N) (N / Nat.gcd (a ^ (r / 2) + 1) N) ∧
        p * q = N) ∧
    (4 ∈ cands → (∀ c ∈ cands, 0 < c) →
      quantum_shor_qiskit 2 15 cands = Except.ok (3, 5)) := by
  constructor
  · intro p q h
    cases hfind : (List.insertionSort (· ≤ ·) cands.dedup).find?
        (fun cand => a ^ cand % N == 1) with
    | none =>
      simp only [quantum_shor_qiskit, hfind] at h
      exact Except.noConfusion h
    | some r =>
      simp only [quantum_shor_qiskit, hfind] at h
      have hmem : r ∈ cands := mem_sorted_dedup.mp (List.mem_of_find?_eq_some hfind)
      have hval : a ^ r % N = 1 := by
        have := List.find?_some hfind
        simpa using this
      have hmin : ∀ c ∈ cands, a ^ c % N = 1 → r ≤ c := by
        intro c hc hvc
        exact find?_sorted_min _ _ (List.sorted_insertionSort _ _) r hfind c
          (mem_sorted_dedup.mpr hc) (by simpa using hvc)
      have hdvd : Nat.gcd (a ^ (r / 2) + 1) N ∣ N := Nat.gcd_dvd_right _ _
      by_cases hodd : r % 2 = 1
      · rw [if_pos hodd] at h
        exact Except.noConfusion h
      · rw [if_neg hodd] at h
        by_cases hlt : N / Nat.gcd (a ^ (r / 2) + 1) N < Nat.gcd (a ^ (r / 2) + 1) N
        · rw [if_pos hlt] at h
          rw [Except.ok.injEq, Prod.mk.injEq] at h
          obtain ⟨hp, hq⟩ := h
          refine ⟨r, hmem, hval, hmin, by omega, ?_, ?_, ?_⟩
          · rw [← hp]; exact (min_eq_right (le_of_lt hlt)).symm
          · rw [← hq]; exact (max_eq_left (le_of_lt hlt)).symm
          · rw [← hp, ← hq]; exact Nat.div_mul_cancel hdvd
        · rw [if_neg hlt] at h
          rw [Except.ok.injEq, Prod.mk.injEq] at h
          obtain ⟨hp, hq⟩ := h
          refine ⟨r, hmem, hval, hmin, by omega, ?_, ?_, ?_⟩
          · rw [← hp]; exact (min_eq_left (le_of_not_lt hlt)).symm
          · rw [← hq]; exact (max_eq_right (le_of_not_lt hlt)).symm
          · rw [← hp, ← hq]; exact Nat.mul_div_cancel' hdvd
  · intro h4 hpos
    have hfind : (List.insertionSort (· ≤ ·) cands.dedup).find?
        (fun cand => 2 ^ cand % 15 == 1) = some 4 := by
      apply find?_sorted_eq_some _ _ (List.sorted_insertionSort _ _) 4
        (mem_sorted_dedup.mpr h4) (by decide)
      intro c hc hpc
      have hcpos : 0 < c := hpos c (mem_sorted_dedup.mp hc)
      have hcval : 2 ^ c % 15 = 1 := by simpa using hpc
      by_contra hlt
      push_neg at hlt
      interval_cases c <;> simp_all
    simp only [quantum_shor_qiskit, hfind]
    rfl

/-- C1 witness: a concrete pool containing 4 is accepted and factored. -/
theorem quantum_shor_validation_spec_witness :
    4 ∈ [4, 2] ∧ (∀ c ∈ [4, 2], 0 < c) ∧
      quantum_shor_qiskit 2 15 [4, 2] = Except.ok (3, 5) :=
  ⟨by decide, by decide, (quantum_shor_validation_spec 2 15 [4, 2]).2 (by decide) (by decide)⟩

/-- C2: `quantum_shor_qiskit` raises the resample exception exactly when no
pooled candidate satisfies `a^r mod N = 1`, raises the bad-base exception
exactly when the accepted (smallest valid) candidate is odd, and in either
failure case returns no factor pair. -/
theorem quantum_shor_error_spec (a N : ℕ) (cands : List ℕ) :
    (quantum_shor_qiskit a N cands = Except.error "Please sample again" ↔
      ∀ c ∈ cands, a ^ c % N ≠ 1) ∧
    (quantum_shor_qiskit a N cands = Except.error "Please choose another a" ↔
      ∃ r, r ∈ cands ∧ a ^ r % N = 1 ∧ (∀ c ∈ cands, a ^ c % N = 1 → r ≤ c) ∧
        r % 2 = 1) ∧
    (∀ e, quantum_shor_qiskit a N cands = Except.error e →
      ∀ p q : ℕ, quantum_shor_qiskit a N cands ≠ Except.ok (p, q)) := by
  refine ⟨⟨?_, ?_⟩, ⟨?_, ?_⟩, ?_⟩
  · intro h c hc hvc
    cases hfind : (List.insertionSort (· ≤ ·) cands.dedup).find?
        (fun cand => a ^ cand % N == 1) with
    | none =>
      rw [List.find?_eq_none] at hfind
      exact hfind c (mem_sorted_dedup.mpr hc) (by simpa using hvc)
    | some r =>
      exfalso
      simp only [quantum_shor_qiskit, hfind] at h
      by_cases hodd : r % 2 = 1
      · rw [if_pos hodd, Except.error.injEq] at h
        exact absurd h (by decide)
      · rw [if_neg hodd] at h
        by_cases hlt : N / Nat.gcd (a ^ (r / 2) + 1) N < Nat.gcd (a ^ (r / 2) + 1) N
        · rw [if_pos hlt] at h
          exact Except.noConfusion h
        · rw [if_neg hlt] at h
          exact Except.noConfusion h
  · intro hall
    have hfind : (List.insertionSort (· ≤ ·) cands.dedup).find?
        (fun cand => a ^ cand % N == 1) = none := by
      rw [List.find?_eq_none]
      intro c hc
      simpa using hall c (mem_sorted_dedup.mp hc)
    simp only [quantum_shor_qiskit, hfind]
  · intro h
    cases hfind : (List.insertionSort (· ≤ ·) cands.dedup).find?
        (fun cand => a ^ cand % N == 1) with
    | none =>
      simp only [quantum_shor_qiskit, hfind, Except.error.injEq] at h
      exact absurd h (by decide)
    | some r =>
      simp only [quantum_shor_qiskit, hfind] at h
      by_cases hodd : r % 2 = 1
      · refine ⟨r, mem_sorted_dedup.mp (List.mem_of_find?_eq_some hfind), ?_, ?_, hodd⟩
        · have := List.find?_some hfind
          simpa using this
        · intro c hc hvc
          exact find?_sorted_min _ _ (List.sorted_insertionSort _ _) r hfind c
            (mem_sorted_dedup.mpr hc) (by simpa using hvc)
      · exfalso
        rw [if_neg hodd] at h
        by_cases hlt : N / Nat.gcd (a ^ (r / 2) + 1) N < Nat.gcd (a ^ (r / 2) + 1) N
        · rw [if_pos hlt] at h
          exact Except.noConfusion h
        · rw [if_neg hlt] at h
          exact Except.noConfusion h
  · rintro ⟨r, hmem, hval, hmin, hodd⟩
    have hfind : (List.insertionSort (· ≤ ·) cands.dedup).find?
        (fun cand => a ^ cand % N == 1) = some r := by
      apply find?_sorted_eq_some _ _ (List.sorted_insertionSort _ _) r
        (mem_sorted_dedup.mpr hmem) (by simpa using hval)
      intro c hc hpc
      exact hmin c (mem_sorted_dedup.mp hc) (by simpa using hpc)
    simp only [quantum_shor_qiskit, hfind]
    rw [if_pos hodd]
  · intro e he p q hok
    rw [he] at hok
    exact Except.noConfusion hok

/-- C2 witness: with pool `[3]` no candidate validates for `a = 2`,
`N = 15`, and the resample exception is raised. -/
theorem quantum_shor_error_spec_witness :
    (∀ c ∈ [3], 2 ^ c % 15 ≠ 1) ∧
      quantum_shor_qiskit 2 15 [3] = Except.error "Please sample again" :=
  ⟨by decide, (quantum_shor_error_spec 2 15 [3]).1.mpr (by decide)⟩

/-- C3 counterexample: `classical_Shor` can return a pair with the larger
factor first.  With the legitimate random draw `a = 10` (in `[2, N-1]`) for
`N = 15`, the `gcd(a, N) != 1` branch returns `(5, 3)`. -/
theorem classical_Shor_unordered_pair :
    (2 ≤ 10 ∧ 10 < 15) ∧ classical_Shor 15 [10] = some (5, 3) ∧ ¬((5:ℕ) ≤ 3) := by
  decide

/-- C3 amended: every factor pair returned by `quantum_shor_qiskit` is
ordered with the smaller factor first (the claim fails for `classical_Shor`,
whose `gcd` branch and even-`N` branch do not sort the pair). -/
theorem quantum_shor_pair_ordered (a N : ℕ) (cands : List ℕ) (p q : ℕ)
    (h : quantum_shor_qiskit a N cands = Except.ok (p, q)) : p ≤ q := by
  cases hfind : (List.insertionSort (· ≤ ·) cands.dedup).find?
      (fun cand => a ^ cand % N == 1) with
  | none =>
    simp only [quantum_shor_qiskit, hfind] at h
    exact Except.noConfusion h
  | some r =>
    simp only [quantum_shor_qiskit, hfind] at h
    by_cases hodd : r % 2 = 1
    · rw [if_pos hodd] at h
      exact Except.noConfusion h
    · rw [if_neg hodd] at h
      by_cases hlt : N / Nat.gcd (a ^ (r / 2) + 1) N < Nat.gcd (a ^ (r / 2) + 1) N
      · rw [if_pos hlt, Except.ok.injEq, Prod.mk.injEq] at h
        omega
      · rw [if_neg hlt, Except.ok.injEq, Prod.mk.injEq] at h
        rw [not_lt] at hlt
        omega

/-- C3 witness: the ordered-pair property at a concrete successful run. -/
theorem quantum_shor_pair_ordered_witness :
    quantum_shor_qiskit 2 15 [4] = Except.ok (3, 5) ∧ (3:ℕ) ≤ 5 :=
  ⟨by rfl, quantum_shor_pair_ordered 2 15 [4] 3 5 (by rfl)⟩

/-- The fuel-indexed exponent search finds the least valid exponent `≥ e0`
whenever some valid exponent lies within the fuel window. -/
lemma findPeriodAux_spec (g N : ℕ) :
    ∀ fuel e0 k, k < fuel → g ^ (e0 + k) % N = 1 →
      ∃ e, findPeriodAux g N fuel e0 = some e ∧ g ^ e % N = 1 ∧ e0 ≤ e ∧
        ∀ j, e0 ≤ j → j < e → g ^ j % N ≠ 1 := by
  intro fuel
  induction fuel with
  | zero => intro e0 k hk; exact absurd hk (by omega)
  | succ fuel ih =>
    intro e0 k hk hval
    by_cases h0 : g ^ e0 % N = 1
    · exact ⟨e0, by simp [findPeriodAux, h0], h0, le_refl e0, fun j hj1 hj2 => by omega⟩
    · cases k with
      | zero => rw [Nat.add_zero] at hval; exact absurd hval h0
      | succ k =>
        obtain ⟨e, he, hev, hee, hmin⟩ := ih (e0 + 1) k (by omega)
          (by rw [show e0 + 1 + k = e0 + (k + 1) from by omega]; exact hval)
        refine ⟨e, ?_, hev, by omega, ?_⟩
        · show (if g ^ e0 % N = 1 then some e0 else findPeriodAux g N fuel (e0 + 1)) = some e
          rw [if_neg h0]
          exact he
        · intro j hj1 hj2
          by_cases hj : j = e0
          · rw [hj]; exact h0
          · exact hmin j (by omega) hj2

/-- C6: for `N > 1` and `gcd(g, N) = 1`, `find_period_classical` terminates
within `N` loop iterations (fuel `N` suffices) and returns the least positive
exponent `e` with `g^e mod N = 1`, the multiplicative order of `g` mod `N`. -/
theorem find_period_classical_correct (g N : ℕ) (hN : 1 < N) (hg : Nat.gcd g N = 1) :
    ∃ e, find_period_classical g N N = some e ∧ 0 < e ∧ g ^ e % N = 1 ∧
      ∀ j, 0 < j → g ^ j % N = 1 → e ≤ j := by
  have hφpos : 0 < Nat.totient N := Nat.totient_pos.mpr (by omega)
  have hφlt : Nat.totient N < N := Nat.totient_lt N hN
  have heuler : g ^ Nat.totient N % N = 1 := by
    have h : g ^ Nat.totient N % N = 1 % N :=
      Nat.ModEq.pow_totient (show Nat.Coprime g N from hg)
    rw [Nat.mod_eq_of_lt hN] at h
    exact h
  obtain ⟨e, he, hev, he1, hmin⟩ := findPeriodAux_spec g N N 1 (Nat.totient N - 1)
    (by omega) (by rw [show 1 + (Nat.totient N - 1) = Nat.totient N from by omega]; exact heuler)
  refine ⟨e, he, by omega, hev, ?_⟩
  intro j hj hjv
  by_contra hlt
  push_neg at hlt
  exact hmin j (by omega) hlt hjv

/-- C6 witness: the order of 2 modulo 15 is found with fuel 15. -/
theorem find_period_classical_correct_witness :
    1 < 15 ∧ Nat.gcd 2 15 = 1 ∧
      ∃ e, find_period_classical 2 15 15 = some e ∧ 0 < e ∧ 2 ^ e % 15 = 1 ∧
        ∀ j, 0 < j → 2 ^ j % 15 = 1 → e ≤ j :=
  ⟨by decide, by decide, find_period_classical_correct 2 15 (by decide) (by decide)⟩

/-- If the 6k±1 trial-division loop answers `true` and the fuel window covers
the whole range `i*i ≤ n`, then no visited candidate (`i + 6m` or
`i + 6m + 2` with `(i+6m)^2 ≤ n`) divides `n`. -/
lemma isPrimeLoop_sound (n : ℕ) :
    ∀ fuel i, n < (i + 6 * fuel) * (i + 6 * fuel) →
      isPrimeLoop n fuel i = true →
      ∀ m, (i + 6 * m) * (i + 6 * m) ≤ n →
        n % (i + 6 * m) ≠ 0 ∧ n % (i + 6 * m + 2) ≠ 0 := by
  intro fuel
  induction fuel with
  | zero =>
    intro i hbound _ m hm
    rw [Nat.mul_zero, Nat.add_zero] at hbound
    have hle : i * i ≤ (i + 6 * m) * (i + 6 * m) :=
      Nat.mul_le_mul (Nat.le_add_right i (6 * m)) (Nat.le_add_right i (6 * m))
    exact absurd hm (Nat.not_le.mpr (Nat.lt_of_lt_of_le hbound hle))
  | succ fuel ih =>
    intro i hbound htrue m hm
    have hunf : isPrimeLoop n (fuel + 1) i =
        if i * i ≤ n then
          if n % i = 0 ∨ n % (i + 2) = 0 then false
          else isPrimeLoop n fuel (i + 6)
        else true := rfl
    rw [hunf] at htrue
    by_cases hii : i * i ≤ n
    · rw [if_pos hii] at htrue
      by_cases hbad : n % i = 0 ∨ n % (i + 2) = 0
      · rw [if_pos hbad] at htrue
        exact Bool.noConfusion htrue
      · rw [if_neg hbad] at htrue
        push_neg at hbad
        cases m with
        | zero =>
          rw [Nat.mul_zero, Nat.add_zero]
          exact hbad
        | succ m =>
          have e1 : i + 6 * (m + 1) = i + 6 + 6 * m := by omega
          have e2 : i + 6 * (fuel + 1) = i + 6 + 6 * fuel := by omega
          rw [e2] at hbound
          rw [e1] at hm ⊢
          exact ih (i + 6) hbound htrue m hm
    · have hle : i * i ≤ (i + 6 * m) * (i + 6 * m) :=
        Nat.mul_le_mul (Nat.le_add_right i (6 * m)) (Nat.le_add_right i (6 * m))
      push_neg at hii
      exact absurd hm (Nat.not_le.mpr (Nat.lt_of_lt_of_le hii hle))

/-- If no visited 6k±1 candidate divides `n`, the trial-division loop answers
`true` (with any fuel). -/
lemma isPrimeLoop_complete (n : ℕ) :
    ∀ fuel i, (∀ m, (i + 6 * m) * (i + 6 * m) ≤ n →
        n % (i + 6 * m) ≠ 0 ∧ n % (i + 6 * m + 2) ≠ 0) →
      isPrimeLoop n fuel i = true := by
  intro fuel
  induction fuel with
  | zero => intro i _; rfl
  | succ fuel ih =>
    intro i hgood
    have hunf : isPrimeLoop n (fuel + 1) i =
        if i * i ≤ n then
          if n % i = 0 ∨ n % (i + 2) = 0 then false
          else isPrimeLoop n fuel (i + 6)
        else true := rfl
    rw [hunf]
    by_cases hii : i * i ≤ n
    · rw [if_pos hii]
      have h0 := hgood 0 (by rw [Nat.mul_zero, Nat.add_zero]; exact hii)
      rw [Nat.mul_zero, Nat.add_zero] at h0
      rw [if_neg (by push_neg; exact h0)]
      apply ih
      intro m hmsq
      have e1 : i + 6 + 6 * m = i + 6 * (m + 1) := by omega
      rw [e1] at hmsq ⊢
      exact hgood (m + 1) hmsq
    · rw [if_neg hii]

/-- The predicate `is_prime` decides primality: the 6k±1 trial division of
the notebook agrees with `Nat.Prime` on every natural number. -/
lemma is_prime_iff (n : ℕ) : is_prime n = true ↔ Nat.Prime n := by
  by_cases h1 : n ≤ 1
  · rw [is_prime, if_pos h1]
    constructor
    · intro h; exact Bool.noConfusion h
    · intro hp; exact absurd hp.two_le (by omega)
  · push_neg at h1
    by_cases h3 : n ≤ 3
    · have : n = 2 ∨ n = 3 := by omega
      rcases this with rfl | rfl
      · simpa [show is_prime 2 = true from by decide] using Nat.prime_two
      · simpa [show is_prime 3 = true from by decide] using Nat.prime_three
    · push_neg at h3
      by_cases h23 : n % 2 = 0 ∨ n % 3 = 0
      · rw [is_prime, if_neg (by omega), if_neg (by omega), if_pos h23]
        constructor
        · intro h; exact Bool.noConfusion h
        · intro hp
          exfalso
          rcases h23 with h2 | h2
          · have hd : (2:ℕ) ∣ n := Nat.dvd_of_mod_eq_zero h2
            have := hp.eq_one_or_self_of_dvd 2 hd
            omega
          · have hd : (3:ℕ) ∣ n := Nat.dvd_of_mod_eq_zero h2
            have := hp.eq_one_or_self_of_dvd 3 hd
            omega
      · push_neg at h23
        rw [is_prime, if_neg (by omega), if_neg (by omega), if_neg (by push_neg; exact h23)]
        constructor
        · intro hloop
          by_contra hnp
          obtain ⟨p, hp, hpdvd, hpsq⟩ : ∃ p, Nat.Prime p ∧ p ∣ n ∧ p * p ≤ n := by
            refine ⟨n.minFac, Nat.minFac_prime (by omega), Nat.minFac_dvd n, ?_⟩
            have h := Nat.minFac_sq_le_self (by omega) hnp
            rw [pow_two] at h
            exact h
          have hpn : n % p = 0 := by
            obtain ⟨k, hk⟩ := hpdvd
            rw [hk, Nat.mul_mod_right]
          have hp2 : p ≠ 2 := by
            rintro rfl
            exact h23.1 hpn
          have hp3 : p ≠ 3 := by
            rintro rfl
            exact h23.2 hpn
          have hpm2 : p % 2 ≠ 0 := by
            intro h
            have hd : (2:ℕ) ∣ p := Nat.dvd_of_mod_eq_zero h
            have := hp.eq_one_or_self_of_dvd 2 hd
            omega
          have hpm3 : p % 3 ≠ 0 := by
            intro h
            have hd : (3:ℕ) ∣ p := Nat.dvd_of_mod_eq_zero h
            have := hp.eq_one_or_self_of_dvd 3 hd
            omega
          have hple : 5 ≤ p := by
            have := hp.two_le
            omega
          have hbound : n < (5 + 6 * n) * (5 + 6 * n) := by
            have ha : n + 1 ≤ 5 + 6 * n := by omega
            have hb : n + 1 ≤ (n + 1) * (n + 1) := Nat.le_mul_of_pos_left _ (by omega)
            have hc : (n + 1) * (n + 1) ≤ (5 + 6 * n) * (5 + 6 * n) := Nat.mul_le_mul ha ha
            omega
          have hsound := isPrimeLoop_sound n n 5 hbound hloop
          have hcases : p % 6 = 1 ∨ p % 6 = 5 := by omega
          rcases hcases with hc | hc
          · obtain ⟨m, hm⟩ : ∃ m, 5 + 6 * m = p - 2 := ⟨(p - 7) / 6, by omega⟩
            have hmsq : (5 + 6 * m) * (5 + 6 * m) ≤ n := by
              rw [hm]
              have hd : (p - 2) * (p - 2) ≤ p * p := Nat.mul_le_mul (by omega) (by omega)
              omega
            have h := (hsound m hmsq).2
            rw [hm, show p - 2 + 2 = p from by omega] at h
            exact h hpn
          · obtain ⟨m, hm⟩ : ∃ m, 5 + 6 * m = p := ⟨(p - 5) / 6, by omega⟩
            have hmsq : (5 + 6 * m) * (5 + 6 * m) ≤ n := by rw [hm]; exact hpsq
            have h := (hsound m hmsq).1
            rw [hm] at h
            exact h hpn
        · intro hp
          apply isPrimeLoop_complete
          intro m hmsq
          constructor
          · intro hdvd0
            have hdvd : (5 + 6 * m) ∣ n := Nat.dvd_of_mod_eq_zero hdvd0
            rcases hp.eq_one_or_self_of_dvd _ hdvd with h | h
            · omega
            · rw [h] at hmsq
              have := Nat.le_of_mul_le_mul_left
                (show n * n ≤ n * 1 from by simpa using hmsq) (show 0 < n from by omega)
              omega
          · intro hdvd0
            have hdvd : (5 + 6 * m + 2) ∣ n := Nat.dvd_of_mod_eq_zero hdvd0
            rcases hp.eq_one_or_self_of_dvd _ hdvd with h | h
            · omega
            · have h5 : 5 * (5 + 6 * m) ≤ (5 + 6 * m) * (5 + 6 * m) :=
                Nat.mul_le_mul (by omega) (le_refl _)
              have := le_trans h5 hmsq
              omega

/-- C10: `is_prime` returns `true` exactly on the primes; in particular it
rejects 0 and 1 and accepts 2 and 3. -/
theorem is_prime_correct :
    (∀ n : ℕ, is_prime n = true ↔ Nat.Prime n) ∧
      is_prime 0 = false ∧ is_prime 1 = false ∧ is_prime 2 = true ∧ is_prime 3 = true :=
  ⟨is_prime_iff, by decide, by decide, by decide, by decide⟩

/-- C4 counterexample: 2 is a prime `≥ 2`, but `classical_Shor 2` takes the
even branch and returns `(2, 1)`, not `(1, 2)`. -/
theorem classical_Shor_at_two :
    Nat.Prime 2 ∧ classical_Shor 2 [] = some (2, 1) ∧
      classical_Shor 2 [] ≠ some (1, 2) := by
  refine ⟨Nat.prime_two, by decide, by decide⟩

/-- C4 amended: for every odd prime `N` (every prime except 2),
`classical_Shor` returns the degenerate pair `(1, N)`, whatever the random
draws; at `N = 2` the even branch fires first and returns `(2, 1)`. -/
theorem classical_Shor_odd_prime (N : ℕ) (draws : List ℕ)
    (hp : Nat.Prime N) (h2 : N ≠ 2) :
    classical_Shor N draws = some (1, N) := by
  have hodd : N % 2 = 1 := Nat.odd_iff.mp (hp.odd_of_ne_two h2)
  rw [classical_Shor, if_neg (by omega), if_pos ((is_prime_iff N).mpr hp)]

/-- C4 witness: the odd prime 3. -/
theorem classical_Shor_odd_prime_witness :
    Nat.Prime 3 ∧ (3:ℕ) ≠ 2 ∧ classical_Shor 3 [] = some (1, 3) :=
  ⟨Nat.prime_three, by decide, classical_Shor_odd_prime 3 [] Nat.prime_three (by decide)⟩

/-- A divisor `g` of `N` with `2 ≤ g < N` yields the nontrivial cofactor
`N / g`. -/
lemma factor_bounds {N g : ℕ} (hdvd : g ∣ N) (h2 : 2 ≤ g) (hlt : g < N) :
    g * (N / g) = N ∧ 1 < N / g ∧ N / g < N := by
  have hN : 0 < N := by omega
  have hprod : g * (N / g) = N := Nat.mul_div_cancel' hdvd
  refine ⟨hprod, ?_, Nat.div_lt_self hN (by omega)⟩
  by_contra hle
  push_neg at hle
  have hNle : N ≤ g := by
    calc N = g * (N / g) := hprod.symm
    _ ≤ g * 1 := Nat.mul_le_mul (le_refl g) hle
    _ = g := Nat.mul_one g
  omega

/-- Every pair produced by the randomized loop of `classical_Shor`, fed draws
from the legal range `[2, N-1]`, is a nontrivial factorization of `N`. -/
lemma shorLoop_nontrivial (N : ℕ) (hN : 2 ≤ N) :
    ∀ draws : List ℕ, (∀ a ∈ draws, 2 ≤ a ∧ a < N) →
      ∀ p q : ℕ, shorLoop N draws = some (p, q) →
        p * q = N ∧ 1 < p ∧ p < N ∧ 1 < q ∧ q < N := by
  intro draws
  induction draws with
  | nil =>
    intro _ p q h
    simp [shorLoop] at h
  | cons a rest ih =>
    intro hd p q h
    have ha := hd a (List.mem_cons_self a rest)
    by_cases hgcd : Nat.gcd a N ≠ 1
    · simp only [shorLoop] at h
      rw [if_pos hgcd] at h
      rw [Option.some.injEq, Prod.mk.injEq] at h
      obtain ⟨hp, hq⟩ := h
      have hgle : Nat.gcd a N ≤ a := Nat.le_of_dvd (by omega) (Nat.gcd_dvd_left a N)
      have hgpos : Nat.gcd a N ≠ 0 := by
        intro h0
        have := Nat.gcd_eq_zero_iff.mp h0
        omega
      have h2g : 2 ≤ Nat.gcd a N := by omega
      have hglt : Nat.gcd a N < N := by omega
      obtain ⟨hprod, hq1, hqN⟩ := factor_bounds (Nat.gcd_dvd_right a N) h2g hglt
      subst hp hq
      exact ⟨hprod, by omega, by omega, hq1, hqN⟩
    · cases hper : find_period_classical a N N with
      | none =>
        simp only [shorLoop, if_neg hgcd, hper] at h
        exact Option.noConfusion h
      | some r =>
        simp only [shorLoop, if_neg hgcd, hper] at h
        by_cases hre : r % 2 = 0
        · rw [if_pos hre] at h
          by_cases hc1 : Nat.gcd (a ^ (r / 2) % N - 1) N ≠ 1 ∧
              Nat.gcd (a ^ (r / 2) % N - 1) N ≠ N
          · rw [if_pos hc1] at h
            rw [Option.some.injEq, Prod.mk.injEq] at h
            obtain ⟨hp, hq⟩ := h
            have hgdvd : Nat.gcd (a ^ (r / 2) % N - 1) N ∣ N := Nat.gcd_dvd_right _ _
            have hgpos : Nat.gcd (a ^ (r / 2) % N - 1) N ≠ 0 := by
              intro h0
              have := Nat.gcd_eq_zero_iff.mp h0
              omega
            have hgle : Nat.gcd (a ^ (r / 2) % N - 1) N ≤ N :=
              Nat.le_of_dvd (by omega) hgdvd
            have h2g : 2 ≤ Nat.gcd (a ^ (r / 2) % N - 1) N := by omega
            have hglt : Nat.gcd (a ^ (r / 2) % N - 1) N < N := by omega
            obtain ⟨hprod, hq1, hqN⟩ := factor_bounds hgdvd h2g hglt
            subst hp hq
            exact ⟨hprod, by omega, by omega, hq1, hqN⟩
          · rw [if_neg hc1] at h
            by_cases hc2 : Nat.gcd (a ^ (r / 2) % N + 1) N ≠ 1 ∧
                Nat.gcd (a ^ (r / 2) % N + 1) N ≠ N
            · rw [if_pos hc2] at h
              rw [Option.some.injEq, Prod.mk.injEq] at h
              obtain ⟨hp, hq⟩ := h
              have hgdvd : Nat.gcd (a ^ (r / 2) % N + 1) N ∣ N := Nat.gcd_dvd_right _ _
              have hgpos : Nat.gcd (a ^ (r / 2) % N + 1) N ≠ 0 := by
                intro h0
                have := Nat.gcd_eq_zero_iff.mp h0
                omega
              have hgle : Nat.gcd (a ^ (r / 2) % N + 1) N ≤ N :=
                Nat.le_of_dvd (by omega) hgdvd
              have h2g : 2 ≤ Nat.gcd (a ^ (r / 2) % N + 1) N := by omega
              have hglt : Nat.gcd (a ^ (r / 2) % N + 1) N < N := by omega
              obtain ⟨hprod, hq1, hqN⟩ := factor_bounds hgdvd h2g hglt
              subst hp hq
              exact ⟨hprod, by omega, by omega, hq1, hqN⟩
            · rw [if_neg hc2] at h
              exact ih (fun b hb => hd b (List.mem_cons_of_mem a hb)) p q h
        · rw [if_neg hre] at h
          exact ih (fun b hb => hd b (List.mem_cons_of_mem a hb)) p q h

/-- C5: whenever `classical_Shor` returns a pair on a composite input (with
draws from the legal range of `random.randint(2, N-1)`), the pair is a
nontrivial factorization: `p * q = N` with `1 < p < N` and `1 < q < N`, on
the even branch, the `gcd(a, N) != 1` branch, and the even-order gcd
branches alike. -/
theorem classical_Shor_composite_nontrivial (N : ℕ) (draws : List ℕ) (p q : ℕ)
    (hN : 2 ≤ N) (hcomp : ¬ Nat.Prime N)
    (hdraws : ∀ a ∈ draws, 2 ≤ a ∧ a < N)
    (h : classical_Shor N draws = some (p, q)) :
    p * q = N ∧ 1 < p ∧ p < N ∧ 1 < q ∧ q < N := by
  rw [classical_Shor] at h
  by_cases he : N % 2 = 0
  · rw [if_pos he] at h
    rw [Option.some.injEq, Prod.mk.injEq] at h
    obtain ⟨hp, hq⟩ := h
    have hN4 : 4 ≤ N := by
      rcases Nat.lt_or_ge N 4 with h4 | h4
      · interval_cases N
        · exact absurd Nat.prime_two hcomp
        · omega
      · exact h4
    have h2d : (2:ℕ) ∣ N := Nat.dvd_of_mod_eq_zero he
    obtain ⟨hprod, hq1, hqN⟩ := factor_bounds h2d (le_refl 2) (by omega)
    subst hp hq
    exact ⟨hprod, by omega, by omega, hq1, hqN⟩
  · rw [if_neg he] at h
    have hip : is_prime N = false := by
      cases hb : is_prime N with
      | false => rfl
      | true => exact absurd ((is_prime_iff N).mp hb) hcomp
    rw [hip] at h
    rw [if_neg (by simp)] at h
    exact shorLoop_nontrivial N hN draws hdraws p q h

/-- C5 witness: `N = 15` with the draw `a = 2` factors nontrivially. -/
theorem classical_Shor_composite_nontrivial_witness :
    2 ≤ 15 ∧ ¬ Nat.Prime 15 ∧ (∀ a ∈ [2], 2 ≤ a ∧ a < 15) ∧
      classical_Shor 15 [2] = some (3, 5) ∧
      (3 * 5 = 15 ∧ 1 < 3 ∧ 3 < 15 ∧ 1 < 5 ∧ 5 < 15) :=
  ⟨by decide, by norm_num, by decide, by decide,
    classical_Shor_composite_nontrivial 15 [2] 3 5 (by decide) (by norm_num)
      (by decide) (by decide)⟩

/-- The expansion `cfTermsN` on the zero denominator is empty, with any fuel. -/
lemma cfTermsN_den_zero : ∀ fuel n, cfTermsN fuel n 0 = [] := by
  intro fuel n
  cases fuel with
  | zero => rfl
  | succ g => simp [cfTermsN]

/-- The continued-fraction expansion does not depend on the fuel once the fuel
reaches the (strictly decreasing) denominator argument: fuel `d` computes the
full expansion. -/
lemma cfTermsN_fuel_irrel : ∀ d f1 f2 n, d ≤ f1 → d ≤ f2 →
    cfTermsN f1 n d = cfTermsN f2 n d := by
  intro d
  induction d using Nat.strong_induction_on with
  | _ d ih =>
    intro f1 f2 n h1 h2
    by_cases hd : d = 0
    · subst hd
      rw [cfTermsN_den_zero, cfTermsN_den_zero]
    · obtain ⟨g1, rfl⟩ : ∃ g, f1 = g + 1 := ⟨f1 - 1, by omega⟩
      obtain ⟨g2, rfl⟩ : ∃ g, f2 = g + 1 := ⟨f2 - 1, by omega⟩
      show (if d = 0 then [] else if n % d = 0 then [n / d]
              else n / d :: cfTermsN g1 d (n % d)) =
           (if d = 0 then [] else if n % d = 0 then [n / d]
              else n / d :: cfTermsN g2 d (n % d))
      rw [if_neg hd, if_neg hd]
      by_cases hm : n % d = 0
      · rw [if_pos hm, if_pos hm]
      · rw [if_neg hm, if_neg hm]
        congr 1
        have hmd : n % d < d := Nat.mod_lt n (by omega)
        exact ih (n % d) hmd g1 g2 d (by omega) (by omega)

/-- After the leading term, every continued-fraction term is at least 1:
the quotients of the Euclidean algorithm on `n / d` with `d ≤ n` are
positive. -/
lemma cfTermsN_tail_pos : ∀ fuel n d, 0 < d → d ≤ n →
    ∀ a ∈ cfTermsN fuel n d, 1 ≤ a := by
  intro fuel
  induction fuel with
  | zero => intro n d _ _ a ha; simp [cfTermsN] at ha
  | succ fuel ih =>
    intro n d hd hdn a ha
    have hq : 1 ≤ n / d := Nat.le_div_iff_mul_le hd |>.mpr (by omega)
    rw [show cfTermsN (fuel + 1) n d =
        if d = 0 then [] else if n % d = 0 then [n / d]
        else n / d :: cfTermsN fuel d (n % d) from rfl] at ha
    rw [if_neg (by omega)] at ha
    by_cases hm : n % d = 0
    · rw [if_pos hm] at ha
      rcases List.mem_singleton.mp ha with rfl
      exact hq
    · rw [if_neg hm] at ha
      rcases List.mem_cons.mp ha with rfl | hmem
      · exact hq
      · exact ih d (n % d) (by omega) (le_of_lt (Nat.mod_lt n hd)) a hmem

/-- Convergent denominators grow: from seeds `km2 ≤ km1`, `1 ≤ km1` and terms
all `≥ 1`, every produced denominator is `≥ km1` and the output is sorted
non-decreasingly. -/
lemma convDenomsAux_mono : ∀ (ts : List ℕ) (km2 km1 : ℕ),
    (∀ a ∈ ts, 1 ≤ a) → km2 ≤ km1 → 1 ≤ km1 →
      (∀ k ∈ convDenomsAux km2 km1 ts, km1 ≤ k) ∧
        List.Pairwise (· ≤ ·) (convDenomsAux km2 km1 ts) := by
  intro ts
  induction ts with
  | nil =>
    intro km2 km1 _ _ _
    exact ⟨by simp [convDenomsAux], by simp [convDenomsAux]⟩
  | cons a rest ih =>
    intro km2 km1 hts hle h1
    have ha : 1 ≤ a := hts a (List.mem_cons_self a rest)
    have hk : km1 ≤ a * km1 + km2 := by
      have := Nat.le_mul_of_pos_left km1 (show 0 < a from ha)
      omega
    have hstep : convDenomsAux km2 km1 (a :: rest) =
        (a * km1 + km2) :: convDenomsAux km1 (a * km1 + km2) rest := rfl
    rw [hstep]
    obtain ⟨ih1, ih2⟩ := ih km1 (a * km1 + km2)
      (fun b hb => hts b (List.mem_cons_of_mem a hb)) hk (by omega)
    constructor
    · intro k hkmem
      rcases List.mem_cons.mp hkmem with rfl | hmem
      · exact hk
      · exact le_trans hk (ih1 k hmem)
    · exact List.Pairwise.cons (fun y hy => ih1 y hy) ih2

/-- With positive fuel, the candidate list of the zero phase is `[1]`. -/
lemma conv_cf_zero (d fuel : ℕ) (hd : 0 < d) (hf : 0 < fuel) :
    convDenomsAux 1 0 (cfTermsN fuel 0 d) = [1] := by
  obtain ⟨g, rfl⟩ : ∃ g, fuel = g + 1 := ⟨fuel - 1, by omega⟩
  rw [show cfTermsN (g + 1) 0 d =
      if d = 0 then [] else if 0 % d = 0 then [0 / d]
      else 0 / d :: cfTermsN g d (0 % d) from rfl]
  rw [if_neg (by omega), if_pos (Nat.zero_mod d), Nat.zero_div]
  rfl

/-- For a positive phase `n / d < 1`, the candidate list starts at 1,
all entries are positive, and the list is sorted non-decreasingly. -/
lemma conv_cf_pos_mono (n d : ℕ) (hn : 0 < n) (hnd : n < d) :
    ∀ fuel, (∀ k ∈ convDenomsAux 1 0 (cfTermsN fuel n d), 1 ≤ k) ∧
      List.Pairwise (· ≤ ·) (convDenomsAux 1 0 (cfTermsN fuel n d)) := by
  intro fuel
  cases fuel with
  | zero => exact ⟨by simp [cfTermsN, convDenomsAux], by simp [cfTermsN, convDenomsAux]⟩
  | succ fuel =>
    have hmod : n % d = n := Nat.mod_eq_of_lt hnd
    have hunf : cfTermsN (fuel + 1) n d = 0 :: cfTermsN fuel d n := by
      rw [show cfTermsN (fuel + 1) n d =
          if d = 0 then [] else if n % d = 0 then [n / d]
          else n / d :: cfTermsN fuel d (n % d) from rfl]
      rw [if_neg (by omega), if_neg (by omega), hmod, Nat.div_eq_of_lt hnd]
    rw [hunf]
    have hstep : convDenomsAux 1 0 (0 :: cfTermsN fuel d n) =
        1 :: convDenomsAux 0 1 (cfTermsN fuel d n) := rfl
    rw [hstep]
    have hts : ∀ a ∈ cfTermsN fuel d n, 1 ≤ a :=
      cfTermsN_tail_pos fuel d n hn (le_of_lt hnd)
    obtain ⟨haux1, haux2⟩ := convDenomsAux_mono (cfTermsN fuel d n) 0 1 hts
      (by omega) (by omega)
    constructor
    · intro k hkmem
      rcases List.mem_cons.mp hkmem with rfl | hmem
      · exact le_refl 1
      · exact haux1 k hmem
    · exact List.Pairwise.cons (fun y hy => haux1 y hy) haux2

/-- C8: on the phase exactly 0, `get_r_candidates` returns the non-empty
candidate list `[1]`, which contains the candidate 1. -/
theorem get_r_candidates_zero :
    get_r_candidates 0 = [1] ∧ get_r_candidates 0 ≠ [] ∧ 1 ∈ get_r_candidates 0 := by
  decide

/-- C9 counterexample: on the phase `2/3 ∈ [0, 1)` the convergent denominators
are `[1, 1, 3]`, which is not strictly increasing. -/
theorem get_r_candidates_not_strictly_increasing :
    (0 ≤ mkRat 2 3 ∧ mkRat 2 3 < 1) ∧
      get_r_candidates (mkRat 2 3) = [1, 1, 3] ∧
      ¬ List.Pairwise (· < ·) (get_r_candidates (mkRat 2 3)) := by
  decide

/-- C9 amended: for every phase in `[0, 1)`, `get_r_candidates` returns a
sequence of positive integers — the convergent denominators — that is
non-decreasing along the sequence (equal consecutive entries can occur, only
between the first two positions, e.g. phase `2/3` gives `[1, 1, 3]`). -/
theorem get_r_candidates_monotone (x : ℚ) (h0 : 0 ≤ x) (h1 : x < 1) :
    (∀ k ∈ get_r_candidates x, 0 < k) ∧
      List.Pairwise (· ≤ ·) (get_r_candidates x) := by
  have hden : 0 < x.den := x.pos
  have hnum_nonneg : 0 ≤ x.num := Rat.num_nonneg.mpr h0
  have hcast : (x.num.natAbs : ℤ) = x.num := Int.natAbs_of_nonneg hnum_nonneg
  by_cases hz : x.num.natAbs = 0
  · rw [get_r_candidates, hz, conv_cf_zero x.den x.den hden hden]
    exact ⟨by simp, by simp⟩
  · have hnpos : 0 < x.num.natAbs := by omega
    have hnd : x.num.natAbs < x.den := by
      have h2 : x.num < (x.den : ℤ) := Rat.lt_one_iff_num_lt_denom.mp h1
      omega
    rw [get_r_candidates]
    obtain ⟨hpos, hmono⟩ := conv_cf_pos_mono x.num.natAbs x.den hnpos hnd x.den
    exact ⟨fun k hk => hpos k hk, hmono⟩

/-- C9 witness: the phase `1/2`. -/
theorem get_r_candidates_monotone_witness :
    0 ≤ mkRat 1 2 ∧ mkRat 1 2 < 1 ∧
      ((∀ k ∈ get_r_candidates (mkRat 1 2), 0 < k) ∧
        List.Pairwise (· ≤ ·) (get_r_candidates (mkRat 1 2))) :=
  ⟨by decide, by decide, get_r_candidates_monotone (mkRat 1 2) (by decide) (by decide)⟩
/-- C7: `error_rate_upper_bound` signals the invalid-argument condition
exactly when the success rate lies outside `(0, 1]`; otherwise it returns
`1 - exp(log s / V)`; at `V = 1`, `s = 1/10` the value is exactly `9/10`
(the floating tolerance of the source is exact equality in the real-number
model), and `s = 3/2` is rejected for every `V`. -/
theorem error_rate_upper_bound_spec (V s : ℝ) :
    (error_rate_upper_bound V s =
        Except.error "The success rate should be between 0 and 1" ↔
      s ≤ 0 ∨ 1 < s) ∧
    (0 < s → s ≤ 1 →
      error_rate_upper_bound V s = Except.ok (1 - Real.exp (Real.log s / V))) ∧
    error_rate_upper_bound 1 (1 / 10) = Except.ok (9 / 10) ∧
    error_rate_upper_bound V (3 / 2) =
      Except.error "The success rate should be between 0 and 1" := by
  refine ⟨⟨?_, ?_⟩, ?_, ?_, ?_⟩
  · intro h
    by_contra hc
    push_neg at hc
    rw [error_rate_upper_bound, if_neg (by push_neg; exact hc)] at h
    exact Except.noConfusion h
  · intro h
    rw [error_rate_upper_bound, if_pos h]
  · intro h0 h1
    rw [error_rate_upper_bound, if_neg (by push_neg; exact ⟨h0, h1⟩)]
  · rw [error_rate_upper_bound, if_neg (by norm_num)]
    congr 1
    rw [div_one, Real.exp_log (by norm_num : (0:ℝ) < 1 / 10)]
    norm_num
  · rw [error_rate_upper_bound, if_pos (by norm_num)]

/-- C7 witness: the accepted success rate `1/2`. -/
theorem error_rate_upper_bound_spec_witness :
    0 < (1:ℝ) / 2 ∧ (1:ℝ) / 2 ≤ 1 ∧
      error_rate_upper_bound 2 (1 / 2) =
        Except.ok (1 - Real.exp (Real.log (1 / 2) / 2)) :=
  ⟨by norm_num, by norm_num,
    (error_rate_upper_bound_spec 2 (1 / 2)).2.1 (by norm_num) (by norm_num)⟩

